import Mathlib

/-!
A shallow embedding of the streaming n-gram ingestion core of BitFunnel
(`src/Index/src/Document.cpp`) together with a model of the `Ingestor`
lifecycle coordinator whose contract is documented in
`src/Index/src/Ingestor.h` (the implementation file is not part of the
sources; those definitions are modelled from the spec and the header's
doc comments).

`Document.cpp` is embedded operation by operation: each C++ method that can
throw `FatalError` becomes a function returning `Document × Option DocError`,
where an error in the second component corresponds to a throw and the first
component is the object state at the moment of the throw (the C++ methods
check their preconditions before mutating, so on a throw from a precondition
check the object is unchanged).
-/

namespace BitFunnel

/-- A term: the canonical text of a (possibly composed) n-gram, as the list
of unigram texts it was composed from, together with the originating stream
id.  `Term::AddTerm(other)` concatenates the texts.  The document-frequency
classification is re-derived from the composed text, hence determined by it,
so it does not appear as a separate field: term equality is equality of
canonical text and stream id. -/
structure Term where
  text : List String
  streamId : Nat
deriving DecidableEq, Repr

/-- Unigram construction: `Term(termText, streamId, docFreqTable)`. -/
def Term.unigram (text : String) (streamId : Nat) : Term :=
  ⟨[text], streamId⟩

/-- Embeds `Term::AddTerm`: compose a higher-order gram by appending the other
term's text. -/
def Term.add (t u : Term) : Term :=
  ⟨t.text ++ u.text, t.streamId⟩

/-- Errors corresponding to `FatalError` throws and `LogAssertB` failures in
the embedded code. -/
inductive DocError where
  | streamAlreadyOpen
  | noOpenStream
  | ringBufferFull
  | ringBufferEmpty
  | assertFailed
deriving DecidableEq, Repr

/-- Embeds `RingBuffer<Term, c_log2MaxGramSize>`: fixed-capacity FIFO buffer.
`buf` lists the elements front first. -/
structure RingBuffer where
  capacity : Nat
  buf : List Term
deriving DecidableEq, Repr

/-- Embeds `RingBuffer::PushBack`: appends at the back; fatal if already at
capacity. -/
def RingBuffer.pushBack (rb : RingBuffer) (t : Term) : Except DocError RingBuffer :=
  if rb.buf.length = rb.capacity then .error .ringBufferFull
  else .ok { rb with buf := rb.buf ++ [t] }

/-- Embeds `RingBuffer::PopFront`: removes the oldest element; fatal if empty. -/
def RingBuffer.popFront (rb : RingBuffer) : Except DocError RingBuffer :=
  match rb.buf with
  | [] => .error .ringBufferEmpty
  | _ :: rest => .ok { rb with buf := rest }

/-- Embeds `RingBuffer::Reset`: clears to empty. -/
def RingBuffer.reset (rb : RingBuffer) : RingBuffer :=
  { rb with buf := [] }

/-- Embeds `RingBuffer::IsEmpty`. -/
def RingBuffer.isEmpty (rb : RingBuffer) : Bool :=
  rb.buf.isEmpty

/-- Per-document ingestion state (`Document`'s data members). `terms` is the
deduplicated term set `m_terms`, kept as its insertion-ordered list of
distinct elements. -/
structure Document where
  maxGramSize : Nat
  postingCount : Nat
  ringBuffer : RingBuffer
  terms : List Term
  streamIsOpen : Bool
  currentStreamId : Nat
deriving DecidableEq, Repr

/-- The `Document` constructor: counters zeroed, stream closed, empty term
set, ring buffer of the given capacity. -/
def Document.new (maxGramSize capacity : Nat) : Document :=
  { maxGramSize := maxGramSize
    postingCount := 0
    ringBuffer := ⟨capacity, []⟩
    terms := []
    streamIsOpen := false
    currentStreamId := 0 }

/-- Embeds `Document::PostTerm`: insert-or-ignore into the deduplicated term set. -/
def postTerm (terms : List Term) (t : Term) : List Term :=
  if t ∈ terms then terms else terms ++ [t]

/-- Posting a list of emitted terms in order. -/
def postTerms (terms : List Term) (emitted : List Term) : List Term :=
  emitted.foldl postTerm terms

/-- The list of terms emitted by one `Document::ProcessNGrams` pass over a
window: the unigram at position 0, then the running composition with
positions 1, 2, …. -/
def ngrams : List Term → List Term
  | [] => []
  | t :: rest => List.scanl Term.add t rest

/-- Embeds `Document::ProcessNGrams`: asserts the window is non-empty
(`LogAssertB(count > 0)`), then emits the `count` growing compositions. -/
def processNGrams (rb : RingBuffer) : Except DocError (List Term) :=
  match rb.buf with
  | [] => .error .assertFailed
  | t :: rest => .ok (List.scanl Term.add t rest)

/-- Embeds `Document::OpenStream`: fatal if a stream is already open; otherwise
marks the stream open, assigns stream id 0 (the placeholder in the source),
and defensively resets the ring buffer. -/
def Document.openStream (d : Document) : Document × Option DocError :=
  if d.streamIsOpen then (d, some .streamAlreadyOpen)
  else ({ d with streamIsOpen := true
                 currentStreamId := 0
                 ringBuffer := d.ringBuffer.reset }, none)

/-- Embeds `Document::AddTerm`: fatal if no stream is open; otherwise increments the
raw term counter, pushes the unigram into the ring buffer, and when the
buffer reaches `maxGramSize` runs `ProcessNGrams` and pops the front. -/
def Document.addTerm (d : Document) (termText : String) : Document × Option DocError :=
  if !d.streamIsOpen then (d, some .noOpenStream)
  else
    let d1 := { d with postingCount := d.postingCount + 1 }
    match d1.ringBuffer.pushBack (Term.unigram termText d1.currentStreamId) with
    | .error e => (d1, some e)
    | .ok rb =>
      let d2 := { d1 with ringBuffer := rb }
      if d2.ringBuffer.buf.length = d2.maxGramSize then
        match processNGrams d2.ringBuffer with
        | .error e => (d2, some e)
        | .ok emitted =>
          let d3 := { d2 with terms := postTerms d2.terms emitted }
          match d3.ringBuffer.popFront with
          | .error e => (d3, some e)
          | .ok rb2 => ({ d3 with ringBuffer := rb2 }, none)
      else (d2, none)

/-- The loop of `Document::PurgeRingBuffer`, acting on the term set and the
ring-buffer contents: while the buffer is non-empty, post the terms emitted
by `ProcessNGrams` on the current buffer, then pop the front. -/
def purgeLoop (terms : List Term) : List Term → List Term
  | [] => terms
  | t :: rest => purgeLoop (postTerms terms (ngrams (t :: rest))) rest

/-- Embeds `Document::PurgeRingBuffer`: while the ring buffer is non-empty, run
`ProcessNGrams` on it and pop the front.  The loop guard guarantees the
buffer is non-empty at both calls inside the body, so `ProcessNGrams`'s
`count > 0` assertion holds (on a non-empty buffer `processNGrams` is
`.ok (ngrams buf)`) and `PopFront` yields the tail; the loop is therefore
embedded as the total function `purgeLoop`, and the buffer ends empty. -/
def Document.purgeRingBuffer (d : Document) : Document :=
  { d with terms := purgeLoop d.terms d.ringBuffer.buf
           ringBuffer := { d.ringBuffer with buf := [] } }

/-- Embeds `Document::CloseStream`: fatal if no stream is open; otherwise marks the
stream closed and purges the ring buffer. -/
def Document.closeStream (d : Document) : Document × Option DocError :=
  if !d.streamIsOpen then (d, some .noOpenStream)
  else (Document.purgeRingBuffer { d with streamIsOpen := false }, none)

/-- Sequencing of the throwing operations: a throw aborts the rest of the
call sequence, leaving the document as it was at the throw. -/
def seqOp (s : Document × Option DocError) (f : Document → Document × Option DocError) :
    Document × Option DocError :=
  match s with
  | (d, none) => f d
  | (d, some e) => (d, some e)

/-- The `AddTerm` phase of a stream: feed the texts one at a time, aborting
at the first fatal error. -/
def runAdds (d : Document) (texts : List String) : Document × Option DocError :=
  texts.foldl (fun s t => seqOp s (Document.addTerm · t)) (d, none)

/-- The `AddTerm` phase followed by `CloseStream`. -/
def addsThenClose (d : Document) (texts : List String) : Document × Option DocError :=
  seqOp (runAdds d texts) Document.closeStream

/-- A complete `OpenStream` / `AddTerm`* / `CloseStream` sequence on a fresh
document whose ring-buffer capacity equals `maxGramSize = k` (§3 of the
spec: capacity = maxGramSize). -/
def ingestStream (k : Nat) (texts : List String) : Document × Option DocError :=
  seqOp (Document.openStream (Document.new k k)) (fun d => addsThenClose d texts)

/-- The structural invariant maintained by `Document`'s usage of the ring
buffer: `maxGramSize` is at least 1, fits in the buffer capacity, and the
buffer holds at most `maxGramSize - 1` terms between operations. -/
def DocInv (d : Document) : Prop :=
  1 ≤ d.maxGramSize ∧
  d.maxGramSize ≤ d.ringBuffer.capacity ∧
  d.ringBuffer.buf.length + 1 ≤ d.maxGramSize

/-- Documents reachable from a freshly constructed `Document` (with
`capacity ≥ maxGramSize ≥ 1`, as in the source where the buffer's capacity
is fixed above the configured `maxGramSize`) through the streaming API.
A throwing call leaves the document at its pre-throw state, which is the
first component of each operation's result. -/
inductive Reachable : Document → Prop where
  | new : ∀ k c, 1 ≤ k → k ≤ c → Reachable (Document.new k c)
  | openStep : ∀ d, Reachable d → Reachable d.openStream.1
  | addStep : ∀ d t, Reachable d → Reachable (d.addTerm t).1
  | closeStep : ∀ d, Reachable d → Reachable d.closeStream.1

/-- The triangular number `n * (n + 1) / 2`, the number of terms emitted
when draining a ring buffer holding `n` terms. -/
def tri : Nat → Nat
  | 0 => 0
  | n + 1 => n + 1 + tri n

/-- Total number of `PostTerm` calls made by a document whose ring buffer
holds `b` terms while it consumes `n` more `AddTerm` calls and then closes
the stream (`k = maxGramSize`): when the buffer reaches `k` the window emits
`k` terms and pops; at close the remaining buffer drains triangularly. -/
def postBound (k : Nat) : Nat → Nat → Nat
  | b, 0 => tri b
  | b, n + 1 => if b + 1 = k then k + postBound k (k - 1) n else postBound k (b + 1) n

/-! ### The `Ingestor` lifecycle model

The repository sources contain only `Ingestor.h` — the declarations and
contract comments — not the implementation.  The following definitions are
modelled from the spec (§4.5) and from the doc comments in `Ingestor.h`;
each doc comment names its source. -/

/-- Externally supplied document identifier. -/
abbrev DocId := Nat

/-- Identifier of a group of documents. -/
abbrev GroupId := Nat

/-- The fatal error of `Ingestor::Add` on an id that is already live. -/
inductive IngestError where
  | duplicateDocument
deriving DecidableEq, Repr

/-- Modelled from the spec: the observable state of an `Ingestor` — the
live and tombstoned entries of its `DocumentMap`, the three atomic counters,
the currently open group, and the recorded `(group, member)` associations. -/
structure IngestorState where
  live : List DocId
  tombstoned : List DocId
  documentCount : Nat
  totalSourceByteSize : Nat
  postingCount : Nat
  currentGroup : Option GroupId
  groupMembers : List (GroupId × DocId)
deriving DecidableEq, Repr

/-- A freshly constructed `Ingestor`: empty map, zeroed counters, no open
group. -/
def IngestorState.initial : IngestorState :=
  ⟨[], [], 0, 0, 0, none, []⟩

/-- Modelled from the spec: `Ingestor::Contains` — true iff the id has a
live, non-tombstoned entry. -/
def IngestorState.contains (s : IngestorState) (id : DocId) : Bool :=
  s.live.contains id

/-- Modelled from the spec: `Ingestor::Add` — fatal `duplicateDocument` if
the id is already live (the throw leaves the state unchanged); otherwise
makes the document live, increments `documentCount`, adds the document's
source byte size and posting count to the cumulative counters, and, if a
group is open, records the id as a member of that group. -/
def IngestorState.add (s : IngestorState) (id : DocId) (postings bytes : Nat) :
    IngestorState × Option IngestError :=
  if s.live.contains id then (s, some .duplicateDocument)
  else
    ({ s with
        live := id :: s.live
        documentCount := s.documentCount + 1
        totalSourceByteSize := s.totalSourceByteSize + bytes
        postingCount := s.postingCount + postings
        groupMembers :=
          match s.currentGroup with
          | some g => (g, id) :: s.groupMembers
          | none => s.groupMembers }, none)

/-- Modelled from the spec and the doc comment on `Ingestor::Delete`
(`Ingestor.h`): if the id is live, tombstone it, decrement `documentCount`
and return true; if it was never added or already removed, return false
without error. -/
def IngestorState.deleteDoc (s : IngestorState) (id : DocId) : IngestorState × Bool :=
  if s.live.contains id then
    ({ s with
        live := s.live.erase id
        tombstoned := id :: s.tombstoned
        documentCount := s.documentCount - 1 }, true)
  else (s, false)

/-- Modelled from the doc comment on `Ingestor::OpenGroup` (`Ingestor.h`):
opens a new group with the given id; all future additions are recorded in
this new group, and the previously open group (if any) is thereby closed —
its recorded membership is preserved and becomes immutable. -/
def IngestorState.openGroup (s : IngestorState) (g : GroupId) :
    IngestorState × Option IngestError :=
  ({ s with currentGroup := some g }, none)

/-- Modelled from the doc comment on `Ingestor::CloseGroup` (`Ingestor.h`):
closes the current group, if any. -/
def IngestorState.closeGroup (s : IngestorState) : IngestorState :=
  { s with currentGroup := none }

/-- Folding `Delete` over a list of ids (the shape of every bulk
deletion). -/
def deleteAll (s : IngestorState) (ids : List DocId) : IngestorState :=
  ids.foldl (fun t id => (t.deleteDoc id).1) s

/-- Modelled from the spec: `Ingestor::ExpireGroup` — performs the
equivalent of `Delete` for every recorded member of the group. -/
def IngestorState.expireGroup (s : IngestorState) (g : GroupId) : IngestorState :=
  deleteAll s ((s.groupMembers.filter (fun p => p.1 == g)).map (fun p => p.2))

/-- The mutating operations of the `Ingestor` API, for stating properties
over arbitrary operation sequences. -/
inductive IngestOp where
  | addOp (id : DocId) (postings bytes : Nat)
  | deleteOp (id : DocId)
  | openGroupOp (g : GroupId)
  | closeGroupOp
  | expireGroupOp (g : GroupId)
deriving DecidableEq, Repr

/-- State reached after one operation (a fatal `Add` leaves the state
unchanged, as the throw happens before any mutation). -/
def applyOp (s : IngestorState) : IngestOp → IngestorState
  | .addOp id p b => (s.add id p b).1
  | .deleteOp id => (s.deleteDoc id).1
  | .openGroupOp g => (s.openGroup g).1
  | .closeGroupOp => s.closeGroup
  | .expireGroupOp g => s.expireGroup g

/-- The total posting count successfully ingested along an operation
sequence starting from `s` (postings of `Add` calls that do not hit the
duplicate-id error). -/
def ingestedPostings : IngestorState → List IngestOp → Nat
  | _, [] => 0
  | s, op :: ops =>
    (match op with
     | .addOp id p _ => if s.live.contains id then 0 else p
     | _ => 0) + ingestedPostings (applyOp s op) ops

/-! ### Lemmas about `scanl` and `ngrams` -/

/-- The `i`-th element of `List.scanl f a l` is the left fold of `f` over the
first `i` elements of `l`. -/
theorem scanl_getElem_eq_foldl_take (f : Term → Term → Term) :
    ∀ (l : List Term) (a : Term) (i : Nat), i ≤ l.length →
      (List.scanl f a l)[i]? = some ((l.take i).foldl f a)
  | [], a, 0, _ => rfl
  | [], _, _ + 1, hi => absurd hi (by simp)
  | b :: l, a, 0, _ => by simp [List.scanl_cons]
  | b :: l, a, i + 1, hi => by
    rw [List.scanl_cons]
    simpa [List.take_succ_cons] using
      scanl_getElem_eq_foldl_take f l (f a b) i (by simpa using hi)

/-- On a non-empty window `ngrams` emits as many terms as the window holds. -/
theorem length_ngrams (t : Term) (rest : List Term) :
    (ngrams (t :: rest)).length = rest.length + 1 := by
  simp [ngrams, List.length_scanl]

/-- The head of a window is its own first emitted n-gram. -/
theorem head_mem_ngrams (t : Term) (rest : List Term) : t ∈ ngrams (t :: rest) := by
  cases rest with
  | nil => simp [ngrams, List.scanl_nil]
  | cons a l => simp [ngrams, List.scanl_cons]

/-! ### Lemmas about `postTerm`, `postTerms` and `purgeLoop` -/

theorem mem_postTerm_left {terms : List Term} {x : Term} (h : x ∈ terms) (t : Term) :
    x ∈ postTerm terms t := by
  unfold postTerm
  split
  · exact h
  · exact List.mem_append_left _ h

theorem mem_postTerm_self (terms : List Term) (t : Term) : t ∈ postTerm terms t := by
  unfold postTerm
  split
  · assumption
  · simp

theorem length_postTerm (terms : List Term) (t : Term) :
    (postTerm terms t).length ≤ terms.length + 1 := by
  unfold postTerm
  split <;> simp

theorem nodup_postTerm {terms : List Term} (h : terms.Nodup) (t : Term) :
    (postTerm terms t).Nodup := by
  unfold postTerm
  split
  · exact h
  · next ht => simp [List.nodup_append, h, ht]

theorem mem_postTerms_left :
    ∀ (emitted terms : List Term) {x : Term}, x ∈ terms → x ∈ postTerms terms emitted
  | [], _, _, h => h
  | e :: es, terms, _, h => mem_postTerms_left es (postTerm terms e) (mem_postTerm_left h e)

theorem mem_postTerms_right :
    ∀ (emitted terms : List Term) {x : Term}, x ∈ emitted → x ∈ postTerms terms emitted
  | e :: es, terms, x, h => by
    rcases List.mem_cons.1 h with rfl | h
    · exact mem_postTerms_left es _ (mem_postTerm_self terms x)
    · exact mem_postTerms_right es _ h

theorem length_postTerms :
    ∀ (emitted terms : List Term), (postTerms terms emitted).length ≤ terms.length + emitted.length
  | [], terms => by simp [postTerms]
  | e :: es, terms => by
    have h1 := length_postTerms es (postTerm terms e)
    have h2 := length_postTerm terms e
    simp only [postTerms, List.foldl_cons, List.length_cons] at h1 ⊢
    omega

theorem nodup_postTerms :
    ∀ (emitted terms : List Term), terms.Nodup → (postTerms terms emitted).Nodup
  | [], _, h => h
  | e :: es, terms, h => nodup_postTerms es (postTerm terms e) (nodup_postTerm h e)

theorem mem_purgeLoop_left :
    ∀ (buf terms : List Term) {x : Term}, x ∈ terms → x ∈ purgeLoop terms buf
  | [], _, _, h => h
  | _t :: rest, terms, _, h =>
    mem_purgeLoop_left rest _ (mem_postTerms_left _ terms h)

/-- Every n-gram of every suffix window of the buffer is in the drained term
set: the `j`-th loop iteration posts exactly `ngrams (buf.drop j)`. -/
theorem mem_purgeLoop_drop :
    ∀ (buf terms : List Term) (j : Nat) {x : Term},
      x ∈ ngrams (buf.drop j) → x ∈ purgeLoop terms buf
  | [], _, j, _, h => by simp [List.drop_nil, ngrams] at h
  | t :: rest, terms, 0, _, h =>
    mem_purgeLoop_left rest _ (mem_postTerms_right _ terms h)
  | _t :: rest, terms, j + 1, _, h => mem_purgeLoop_drop rest _ j h

/-- Every term still in the buffer at drain time ends up in the term set
(it is the unigram head of the window at its own drain iteration). -/
theorem mem_purgeLoop_buf :
    ∀ (buf terms : List Term) {x : Term}, x ∈ buf → x ∈ purgeLoop terms buf
  | t :: rest, terms, x, h => by
    rcases List.mem_cons.1 h with rfl | h
    · exact mem_purgeLoop_left rest _ (mem_postTerms_right _ terms (head_mem_ngrams x rest))
    · exact mem_purgeLoop_buf rest _ h

theorem length_purgeLoop :
    ∀ (buf terms : List Term), (purgeLoop terms buf).length ≤ terms.length + tri buf.length
  | [], terms => by simp [purgeLoop, tri]
  | t :: rest, terms => by
    have h1 := length_purgeLoop rest (postTerms terms (ngrams (t :: rest)))
    have h2 := length_postTerms (ngrams (t :: rest)) terms
    have h3 := length_ngrams t rest
    simp only [purgeLoop, List.length_cons, tri] at h1 ⊢
    omega

theorem nodup_purgeLoop :
    ∀ (buf terms : List Term), terms.Nodup → (purgeLoop terms buf).Nodup
  | [], _, h => h
  | _t :: rest, terms, h => nodup_purgeLoop rest _ (nodup_postTerms _ terms h)

end BitFunnel

namespace BitFunnel

/-- C1: with `maxGramSize = 2`, the sequence `OpenStream`, `AddTerm "a"`,
`AddTerm "b"`, `AddTerm "c"`, `CloseStream` runs without a fatal error and
produces the deduplicated term set `{a, a+b, b, b+c, c}` (in insertion
order), and the trigram `a+b+c` is never inserted. -/
theorem document_abc_maxGram2_terms :
    (ingestStream 2 ["a", "b", "c"]).2 = none ∧
    (ingestStream 2 ["a", "b", "c"]).1.terms =
      [⟨["a"], 0⟩, ⟨["a", "b"], 0⟩, ⟨["b"], 0⟩, ⟨["b", "c"], 0⟩, ⟨["c"], 0⟩] ∧
    (⟨["a", "b", "c"], 0⟩ : Term) ∉ (ingestStream 2 ["a", "b", "c"]).1.terms := by
  decide

/-- C2: on a non-empty window `t :: rest` of `k = rest.length + 1` terms,
`ProcessNGrams` succeeds and emits exactly `k` terms, the `i`-th (0-based)
being the composition of the window elements at positions `0 … i`. -/
theorem processNGrams_emits_prefix_compositions (c : Nat) (t : Term) (rest : List Term) :
    processNGrams ⟨c, t :: rest⟩ = Except.ok (ngrams (t :: rest)) ∧
    (ngrams (t :: rest)).length = rest.length + 1 ∧
    ∀ i, i ≤ rest.length →
      (ngrams (t :: rest))[i]? = some ((rest.take i).foldl Term.add t) := by
  refine ⟨rfl, ?_, ?_⟩
  · simp [ngrams, List.length_scanl]
  · intro i hi
    exact scanl_getElem_eq_foldl_take Term.add rest t i hi

/-- Witness for C2 at the concrete window `[x, y, z]`: the third emitted term
is the trigram `x+y+z`. -/
theorem processNGrams_emits_prefix_compositions_witness :
    (ngrams [Term.unigram "x" 0, Term.unigram "y" 0, Term.unigram "z" 0])[2]? =
      some ⟨["x", "y", "z"], 0⟩ :=
  ((processNGrams_emits_prefix_compositions 3 (Term.unigram "x" 0)
      [Term.unigram "y" 0, Term.unigram "z" 0]).2.2 2 (by decide)).trans (by decide)

/-- C10: `OpenStream` on a closed-stream document succeeds and changes only
the stream-open flag, the current stream id, and the ring buffer (reset to
empty); in particular the deduplicated term set and the running posting
counter are untouched, and a term already in the set is deduplicated (not
re-inserted) when posted again later. -/
theorem openStream_frame (d : Document) (h : d.streamIsOpen = false) :
    d.openStream =
      ({ maxGramSize := d.maxGramSize
         postingCount := d.postingCount
         ringBuffer := ⟨d.ringBuffer.capacity, []⟩
         terms := d.terms
         streamIsOpen := true
         currentStreamId := 0 }, none) ∧
    ∀ t ∈ d.terms, postTerm d.terms t = d.terms := by
  constructor
  · simp [Document.openStream, h, RingBuffer.reset]
  · intro t ht
    simp [postTerm, ht]

/-- Witness for C10 at a fresh document. -/
theorem openStream_frame_witness :
    (Document.new 2 2).streamIsOpen = false ∧
    (Document.new 2 2).openStream =
      ({ maxGramSize := 2, postingCount := 0, ringBuffer := ⟨2, []⟩,
         terms := [], streamIsOpen := true, currentStreamId := 0 }, none) :=
  ⟨rfl, (openStream_frame (Document.new 2 2) rfl).1⟩

/-! ### Reduction lemmas for the streaming operations -/

theorem openStream_of_open {d : Document} (h : d.streamIsOpen = true) :
    d.openStream = (d, some DocError.streamAlreadyOpen) := by
  simp [Document.openStream, h]

theorem addTerm_of_closed {d : Document} (h : d.streamIsOpen = false) (t : String) :
    d.addTerm t = (d, some DocError.noOpenStream) := by
  simp [Document.addTerm, h]

theorem closeStream_of_closed {d : Document} (h : d.streamIsOpen = false) :
    d.closeStream = (d, some DocError.noOpenStream) := by
  simp [Document.closeStream, h]

theorem closeStream_of_open {d : Document} (h : d.streamIsOpen = true) :
    d.closeStream =
      ({ d with streamIsOpen := false
                terms := purgeLoop d.terms d.ringBuffer.buf
                ringBuffer := ⟨d.ringBuffer.capacity, []⟩ }, none) := by
  simp [Document.closeStream, h, Document.purgeRingBuffer]

/-- Running `AddTerm` on an open stream with a full window: the unigram is pushed,
the window is at `maxGramSize`, its n-grams are posted, and the front is
popped. -/
theorem addTerm_of_full {d : Document} (t : String)
    (hopen : d.streamIsOpen = true)
    (hcap : d.ringBuffer.buf.length < d.ringBuffer.capacity)
    (hfull : d.ringBuffer.buf.length + 1 = d.maxGramSize) :
    d.addTerm t =
      ({ d with
          postingCount := d.postingCount + 1
          terms := postTerms d.terms
            (ngrams (d.ringBuffer.buf ++ [Term.unigram t d.currentStreamId]))
          ringBuffer := ⟨d.ringBuffer.capacity,
            (d.ringBuffer.buf ++ [Term.unigram t d.currentStreamId]).tail⟩ }, none) := by
  have hne : ¬ d.ringBuffer.buf.length = d.ringBuffer.capacity := Nat.ne_of_lt hcap
  cases hb : d.ringBuffer.buf with
  | nil =>
    rw [hb] at hne hfull
    simp only [List.length_nil] at hne hfull
    simp [Document.addTerm, hopen, RingBuffer.pushBack, hb, hne, ← hfull,
      processNGrams, ngrams, RingBuffer.popFront]
  | cons a l =>
    rw [hb] at hne hfull
    simp only [List.length_cons] at hne hfull
    simp [Document.addTerm, hopen, RingBuffer.pushBack, hb, hne, ← hfull,
      processNGrams, ngrams, RingBuffer.popFront]

/-- Running `AddTerm` on an open stream with a not-yet-full window: the unigram is
pushed and nothing is emitted. -/
theorem addTerm_of_not_full {d : Document} (t : String)
    (hopen : d.streamIsOpen = true)
    (hcap : d.ringBuffer.buf.length < d.ringBuffer.capacity)
    (hnot : d.ringBuffer.buf.length + 1 ≠ d.maxGramSize) :
    d.addTerm t =
      ({ d with
          postingCount := d.postingCount + 1
          ringBuffer := ⟨d.ringBuffer.capacity,
            d.ringBuffer.buf ++ [Term.unigram t d.currentStreamId]⟩ }, none) := by
  have hne : ¬ d.ringBuffer.buf.length = d.ringBuffer.capacity := Nat.ne_of_lt hcap
  simp [Document.addTerm, hopen, RingBuffer.pushBack, hne, hnot]

/-! ### The ring-buffer occupancy invariant -/

theorem docInv_new {k c : Nat} (hk : 1 ≤ k) (hc : k ≤ c) : DocInv (Document.new k c) :=
  ⟨hk, hc, by simpa [Document.new] using hk⟩

theorem docInv_openStream {d : Document} (h : DocInv d) : DocInv d.openStream.1 := by
  cases hs : d.streamIsOpen with
  | true => rw [openStream_of_open hs]; exact h
  | false =>
    rw [(openStream_frame d hs).1]
    exact ⟨h.1, h.2.1, by simpa using h.1⟩

theorem docInv_addTerm {d : Document} (h : DocInv d) (t : String) :
    DocInv (d.addTerm t).1 := by
  cases hs : d.streamIsOpen with
  | false => rw [addTerm_of_closed hs]; exact h
  | true =>
    have hcap : d.ringBuffer.buf.length < d.ringBuffer.capacity := by
      have := h.2.1; have := h.2.2; omega
    by_cases hfull : d.ringBuffer.buf.length + 1 = d.maxGramSize
    · rw [addTerm_of_full t hs hcap hfull]
      refine ⟨h.1, h.2.1, ?_⟩
      simp only [List.length_tail, List.length_append, List.length_cons,
        List.length_nil]
      omega
    · rw [addTerm_of_not_full t hs hcap hfull]
      refine ⟨h.1, h.2.1, ?_⟩
      have := h.2.2
      simp only [List.length_append, List.length_cons, List.length_nil]
      omega

theorem docInv_closeStream {d : Document} (h : DocInv d) : DocInv d.closeStream.1 := by
  cases hs : d.streamIsOpen with
  | false => rw [closeStream_of_closed hs]; exact h
  | true =>
    rw [closeStream_of_open hs]
    exact ⟨h.1, h.2.1, by simpa using h.1⟩

/-- Every document reachable through the streaming API satisfies the
occupancy invariant. -/
theorem reachable_docInv {d : Document} (h : Reachable d) : DocInv d := by
  induction h with
  | new k c hk hc => exact docInv_new hk hc
  | openStep d _ ih => exact docInv_openStream ih
  | addStep d t _ ih => exact docInv_addTerm ih t
  | closeStep d _ ih => exact docInv_closeStream ih

/-- Under the invariant, `AddTerm` on an open stream completes without a
fatal error. -/
theorem addTerm_ok {d : Document} (h : DocInv d) (hs : d.streamIsOpen = true)
    (t : String) : (d.addTerm t).2 = none := by
  have hcap : d.ringBuffer.buf.length < d.ringBuffer.capacity := by
    have := h.2.1; have := h.2.2; omega
  by_cases hfull : d.ringBuffer.buf.length + 1 = d.maxGramSize
  · rw [addTerm_of_full t hs hcap hfull]
  · rw [addTerm_of_not_full t hs hcap hfull]

/-- C3: `CloseStream` on an open stream succeeds, marks the stream closed,
leaves the ring buffer empty, preserves every previously accumulated term,
and has emitted into the term set every trailing n-gram: for every `j`, all
the n-grams of the suffix window `buf.drop j` (the window processed by the
`j`-th drain iteration). -/
theorem closeStream_drains (d : Document) (h : d.streamIsOpen = true) :
    d.closeStream.2 = none ∧
    d.closeStream.1.ringBuffer.buf = [] ∧
    d.closeStream.1.streamIsOpen = false ∧
    (∀ x ∈ d.terms, x ∈ d.closeStream.1.terms) ∧
    (∀ j, ∀ x ∈ ngrams (d.ringBuffer.buf.drop j), x ∈ d.closeStream.1.terms) := by
  rw [closeStream_of_open h]
  refine ⟨rfl, rfl, rfl, ?_, ?_⟩
  · intro x hx
    exact mem_purgeLoop_left _ _ hx
  · intro j x hx
    exact mem_purgeLoop_drop _ _ j hx

/-- Witness for C3: closing a stream whose ring buffer holds two terms. -/
theorem closeStream_drains_witness :
    (Document.mk 3 2 ⟨3, [⟨["a"], 0⟩, ⟨["b"], 0⟩]⟩ [] true 0).closeStream.2 = none ∧
    (Document.mk 3 2 ⟨3, [⟨["a"], 0⟩, ⟨["b"], 0⟩]⟩ [] true 0).closeStream.1.ringBuffer.buf = [] := by
  have h := closeStream_drains (Document.mk 3 2 ⟨3, [⟨["a"], 0⟩, ⟨["b"], 0⟩]⟩ [] true 0) rfl
  exact ⟨h.1, h.2.1⟩

/-- C5: the stream state machine.  On every reachable document,
`OpenStream` throws exactly when a stream is open, `AddTerm` and
`CloseStream` throw exactly when none is, and every throwing call leaves the
document unchanged (the pair equality with `d`). -/
theorem stream_state_machine (d : Document) (h : Reachable d) :
    ((d.openStream.2 ≠ none) ↔ d.streamIsOpen = true) ∧
    (d.streamIsOpen = true → d.openStream = (d, some DocError.streamAlreadyOpen)) ∧
    (∀ t, (d.addTerm t).2 ≠ none ↔ d.streamIsOpen = false) ∧
    (d.streamIsOpen = false → ∀ t, d.addTerm t = (d, some DocError.noOpenStream)) ∧
    ((d.closeStream.2 ≠ none) ↔ d.streamIsOpen = false) ∧
    (d.streamIsOpen = false → d.closeStream = (d, some DocError.noOpenStream)) := by
  have hinv := reachable_docInv h
  refine ⟨?_, ?_, ?_, ?_, ?_, ?_⟩
  · cases hs : d.streamIsOpen with
    | true => simp [openStream_of_open hs]
    | false => simp [(openStream_frame d hs).1]
  · intro hs
    exact openStream_of_open hs
  · intro t
    cases hs : d.streamIsOpen with
    | true => simp [addTerm_ok hinv hs t]
    | false => simp [addTerm_of_closed hs t]
  · intro hs t
    exact addTerm_of_closed hs t
  · cases hs : d.streamIsOpen with
    | true => simp [closeStream_of_open hs]
    | false => simp [closeStream_of_closed hs]
  · intro hs
    exact closeStream_of_closed hs

/-- Witness for C5: a fresh document has no open stream, so `CloseStream`
throws and leaves it unchanged. -/
theorem stream_state_machine_witness :
    (Document.new 2 2).closeStream = (Document.new 2 2, some DocError.noOpenStream) :=
  (stream_state_machine (Document.new 2 2)
    (Reachable.new 2 2 (by decide) (by decide))).2.2.2.2.2 rfl

/-- C6: on every reachable document the ring-buffer count stays at most
`maxGramSize - 1` between operations (so the `PushBack` precondition
`count < capacity` holds at its call site), `AddTerm` and `CloseStream` can
only throw the no-open-stream error — the at-capacity branch of `PushBack`
and the `count > 0` assertion of `ProcessNGrams` are unreachable — and
`ProcessNGrams` succeeds on every non-empty window, which is what its two
call sites (full window in `AddTerm`, loop guard in `PurgeRingBuffer`)
supply. -/
theorem ringBuffer_usage_safe (d : Document) (h : Reachable d) :
    (1 ≤ d.maxGramSize ∧ d.maxGramSize ≤ d.ringBuffer.capacity ∧
      d.ringBuffer.buf.length + 1 ≤ d.maxGramSize) ∧
    (∀ t, (d.addTerm t).2 = none ∨ (d.addTerm t).2 = some DocError.noOpenStream) ∧
    (d.closeStream.2 = none ∨ d.closeStream.2 = some DocError.noOpenStream) ∧
    (∀ c t rest, processNGrams ⟨c, t :: rest⟩ = Except.ok (ngrams (t :: rest))) := by
  have hinv := reachable_docInv h
  refine ⟨⟨hinv.1, hinv.2.1, hinv.2.2⟩, ?_, ?_, ?_⟩
  · intro t
    cases hs : d.streamIsOpen with
    | true => exact Or.inl (addTerm_ok hinv hs t)
    | false => exact Or.inr (by rw [addTerm_of_closed hs])
  · cases hs : d.streamIsOpen with
    | true => exact Or.inl (by rw [closeStream_of_open hs])
    | false => exact Or.inr (by rw [closeStream_of_closed hs])
  · intro c t rest
    rfl

/-- Witness for C6 at a freshly constructed document. -/
theorem ringBuffer_usage_safe_witness :
    (Document.new 2 3).closeStream.2 = none ∨
    (Document.new 2 3).closeStream.2 = some DocError.noOpenStream :=
  (ringBuffer_usage_safe (Document.new 2 3)
    (Reachable.new 2 3 (by decide) (by decide))).2.2.1

/-! ### Counting the emitted terms -/

theorem two_mul_tri : ∀ n : Nat, 2 * tri n = n * (n + 1)
  | 0 => rfl
  | n + 1 => by
    have ih := two_mul_tri n
    calc 2 * tri (n + 1) = 2 * (n + 1) + 2 * tri n := by simp [tri]; ring
      _ = 2 * (n + 1) + n * (n + 1) := by rw [ih]
      _ = (n + 1) * (n + 1 + 1) := by ring

theorem tri_pred_eq_div {k : Nat} (hk : 1 ≤ k) : tri (k - 1) = k * (k - 1) / 2 := by
  have h := two_mul_tri (k - 1)
  have hk1 : k - 1 + 1 = k := by omega
  rw [hk1] at h
  rw [Nat.mul_comm k (k - 1), ← h, Nat.mul_div_cancel_left _ (by norm_num : 0 < 2)]

/-- Closed form of `postBound` once the remaining stream is long enough to
fill the window: starting `q` short of a full window and consuming `n ≥ q`
more terms posts `(n - q) * k` terms in the steady state plus `tri (k - 1)`
at drain time. -/
theorem postBound_eq :
    ∀ (n q k : Nat), q + 1 ≤ k → q ≤ n →
      postBound k (k - 1 - q) n = (n - q) * k + tri (k - 1)
  | 0, q, k, _, hqn => by
    have hq : q = 0 := Nat.le_zero.1 hqn
    subst hq
    simp [postBound]
  | n + 1, 0, k, hqk, _ => by
    have hcond : k - 1 - 0 + 1 = k := by omega
    rw [show k - 1 - 0 = k - 1 by omega]
    simp only [postBound, if_pos (by omega : k - 1 + 1 = k)]
    have ih := postBound_eq n 0 k hqk (Nat.zero_le n)
    rw [show k - 1 - 0 = k - 1 by omega] at ih
    rw [ih]
    have : (n + 1 - 0) * k = (n - 0) * k + k := by
      simp [Nat.succ_mul]
    omega
  | n + 1, q + 1, k, hqk, hqn => by
    have hcond : ¬(k - 1 - (q + 1) + 1 = k) := by omega
    simp only [postBound, if_neg hcond]
    rw [show k - 1 - (q + 1) + 1 = k - 1 - q by omega]
    have ih := postBound_eq n q k (by omega) (by omega)
    rw [ih, show n + 1 - (q + 1) = n - q by omega]

theorem length_ngrams_of_ne_nil : ∀ l : List Term, l ≠ [] → (ngrams l).length = l.length
  | [], h => absurd rfl h
  | t :: rest, _ => by simpa using length_ngrams t rest

theorem addsThenClose_cons_ok {d d1 : Document} {t : String} (ts : List String)
    (h : d.addTerm t = (d1, none)) :
    addsThenClose d (t :: ts) = addsThenClose d1 ts := by
  simp only [addsThenClose, runAdds, List.foldl_cons, seqOp, h]

/-- Behaviour of an `AddTerm`* / `CloseStream` run from an open document
satisfying the occupancy invariant: no fatal error occurs, the term-set
growth is bounded by `postBound`, previously accumulated terms, currently
buffered terms and every streamed unigram all end up in the final term set,
and distinctness of the term set is preserved. -/
theorem addsThenClose_spec :
    ∀ (texts : List String) (d : Document),
      d.streamIsOpen = true → DocInv d →
      (addsThenClose d texts).2 = none ∧
      (addsThenClose d texts).1.terms.length ≤
        d.terms.length + postBound d.maxGramSize d.ringBuffer.buf.length texts.length ∧
      (∀ x ∈ d.terms, x ∈ (addsThenClose d texts).1.terms) ∧
      (∀ x ∈ d.ringBuffer.buf, x ∈ (addsThenClose d texts).1.terms) ∧
      (∀ s ∈ texts, Term.unigram s d.currentStreamId ∈ (addsThenClose d texts).1.terms) ∧
      (d.terms.Nodup → (addsThenClose d texts).1.terms.Nodup)
  | [], d, hs, _hinv => by
    have hrun : addsThenClose d [] = d.closeStream := by
      simp [addsThenClose, runAdds, seqOp]
    rw [hrun, closeStream_of_open hs]
    refine ⟨rfl, ?_, ?_, ?_, ?_, ?_⟩
    · simpa [postBound] using length_purgeLoop d.ringBuffer.buf d.terms
    · intro x hx
      exact mem_purgeLoop_left _ _ hx
    · intro x hx
      exact mem_purgeLoop_buf _ _ hx
    · intro s hss
      simp at hss
    · intro hnd
      exact nodup_purgeLoop _ _ hnd
  | t :: ts, d, hs, hinv => by
    have hcap : d.ringBuffer.buf.length < d.ringBuffer.capacity := by
      have h1 := hinv.2.1; have h2 := hinv.2.2; omega
    by_cases hfull : d.ringBuffer.buf.length + 1 = d.maxGramSize
    · have hstep := addTerm_of_full t hs hcap hfull
      set u := Term.unigram t d.currentStreamId with hu
      set d1 : Document :=
        { d with postingCount := d.postingCount + 1
                 terms := postTerms d.terms (ngrams (d.ringBuffer.buf ++ [u]))
                 ringBuffer := ⟨d.ringBuffer.capacity, (d.ringBuffer.buf ++ [u]).tail⟩ }
        with hd1
      have hinv1 : DocInv d1 := by
        have h := docInv_addTerm hinv t
        rw [hstep] at h
        exact h
      have ih := addsThenClose_spec ts d1 hs hinv1
      rw [addsThenClose_cons_ok ts hstep]
      refine ⟨ih.1, ?_, ?_, ?_, ?_, ?_⟩
      · have hlen1 : d1.terms.length ≤ d.terms.length + (d.ringBuffer.buf.length + 1) := by
          have h1 := length_postTerms (ngrams (d.ringBuffer.buf ++ [u])) d.terms
          have h2 : (ngrams (d.ringBuffer.buf ++ [u])).length =
              d.ringBuffer.buf.length + 1 := by
            rw [length_ngrams_of_ne_nil _ (by simp)]
            simp
          simp only [hd1]
          omega
        have hbuf1 : d1.ringBuffer.buf.length = d.maxGramSize - 1 := by
          simp only [hd1, List.length_tail, List.length_append, List.length_cons,
            List.length_nil]
          omega
        have hmax1 : d1.maxGramSize = d.maxGramSize := by rw [hd1]
        have ihl := ih.2.1
        rw [hbuf1, hmax1] at ihl
        simp only [List.length_cons, postBound, if_pos hfull]
        omega
      · intro x hx
        exact ih.2.2.1 x (mem_postTerms_left _ d.terms hx)
      · intro x hx
        cases hbuf : d.ringBuffer.buf with
        | nil =>
          rw [hbuf] at hx
          exact absurd hx (List.not_mem_nil x)
        | cons b0 brest =>
          rw [hbuf] at hx
          rcases List.mem_cons.1 hx with rfl | hx2
          · refine ih.2.2.1 x (mem_postTerms_right _ d.terms ?_)
            rw [hbuf]
            exact head_mem_ngrams x (brest ++ [u])
          · refine ih.2.2.2.1 x ?_
            show x ∈ d1.ringBuffer.buf
            simp only [hd1, hbuf, List.cons_append, List.tail_cons, List.mem_append]
            exact Or.inl hx2
      · intro s hss
        rcases List.mem_cons.1 hss with rfl | hts
        · cases hbuf : d.ringBuffer.buf with
          | nil =>
            refine ih.2.2.1 _ (mem_postTerms_right _ d.terms ?_)
            rw [hbuf]
            exact head_mem_ngrams u []
          | cons b0 brest =>
            refine ih.2.2.2.1 _ ?_
            show u ∈ d1.ringBuffer.buf
            simp only [hd1, hbuf, List.cons_append, List.tail_cons, List.mem_append]
            exact Or.inr (by simp)
        · exact ih.2.2.2.2.1 s hts
      · intro hnd
        exact ih.2.2.2.2.2 (nodup_postTerms _ d.terms hnd)
    · have hstep := addTerm_of_not_full t hs hcap hfull
      set u := Term.unigram t d.currentStreamId with hu
      set d1 : Document :=
        { d with postingCount := d.postingCount + 1
                 ringBuffer := ⟨d.ringBuffer.capacity, d.ringBuffer.buf ++ [u]⟩ }
        with hd1
      have hinv1 : DocInv d1 := by
        have h := docInv_addTerm hinv t
        rw [hstep] at h
        exact h
      have ih := addsThenClose_spec ts d1 hs hinv1
      rw [addsThenClose_cons_ok ts hstep]
      refine ⟨ih.1, ?_, ?_, ?_, ?_, ?_⟩
      · have hbuf1 : d1.ringBuffer.buf.length = d.ringBuffer.buf.length + 1 := by
          simp [hd1]
        have hmax1 : d1.maxGramSize = d.maxGramSize := by rw [hd1]
        have ihl := ih.2.1
        rw [hbuf1, hmax1] at ihl
        simp only [List.length_cons, postBound, if_neg hfull]
        have hterms1 : d1.terms.length = d.terms.length := by rw [hd1]
        omega
      · intro x hx
        exact ih.2.2.1 x hx
      · intro x hx
        refine ih.2.2.2.1 x ?_
        show x ∈ d1.ringBuffer.buf
        simp only [hd1, List.mem_append]
        exact Or.inl hx
      · intro s hss
        rcases List.mem_cons.1 hss with rfl | hts
        · refine ih.2.2.2.1 _ ?_
          show u ∈ d1.ringBuffer.buf
          simp only [hd1, List.mem_append]
          exact Or.inr (by simp)
        · exact ih.2.2.2.2.1 s hts
      · intro hnd
        exact ih.2.2.2.2.2 hnd

/-- Counterexample to C4 as stated: for `maxGramSize = 3` and the 1-term
stream `["a"]` (so `L = 1 ≥ 1`), the run succeeds and the term set holds 1
unique term, but the claimed bound `L·k − k(k−1)/2` evaluates to `0`. -/
theorem ingest_term_count_counterexample :
    (ingestStream 3 ["a"]).2 = none ∧
    (ingestStream 3 ["a"]).1.terms.length = 1 ∧
    ¬((ingestStream 3 ["a"]).1.terms.length ≤ 1 * 3 - 3 * (3 - 1) / 2) := by
  decide

/-- C4 (amended): the bound additionally requires the stream to be at least
`k - 1` terms long (for shorter streams the window never fills, and the
count is instead bounded by the triangular drain).  Under
`1 ≤ k ≤ L + 1`, the full run succeeds, the unique-term count is at most
`L·k − k(k−1)/2`, and it is at least the number of distinct unigrams in the
stream. -/
theorem ingest_term_count_bounds (k : Nat) (texts : List String)
    (hk : 1 ≤ k) (_hL : 1 ≤ texts.length) (hLk : k - 1 ≤ texts.length) :
    (ingestStream k texts).2 = none ∧
    (ingestStream k texts).1.terms.length ≤ texts.length * k - k * (k - 1) / 2 ∧
    ((texts.map (fun s => Term.unigram s 0)).dedup).length ≤
      (ingestStream k texts).1.terms.length := by
  set D0 : Document :=
    { maxGramSize := k, postingCount := 0, ringBuffer := ⟨k, []⟩,
      terms := [], streamIsOpen := true, currentStreamId := 0 } with hD0
  have hstart : ingestStream k texts = addsThenClose D0 texts := by
    simp [ingestStream, Document.openStream, Document.new, RingBuffer.reset, seqOp, hD0]
  have hspec := addsThenClose_spec texts D0 rfl ⟨hk, le_refl k, by simpa using hk⟩
  refine ⟨by rw [hstart]; exact hspec.1, ?_, ?_⟩
  · rw [hstart]
    have h2 : (addsThenClose D0 texts).1.terms.length ≤ 0 + postBound k 0 texts.length :=
      hspec.2.1
    have hpb := postBound_eq texts.length (k - 1) k (by omega) hLk
    rw [show k - 1 - (k - 1) = 0 by omega] at hpb
    have htri : tri (k - 1) = k * (k - 1) / 2 := tri_pred_eq_div hk
    have hsub : (texts.length - (k - 1)) * k = texts.length * k - (k - 1) * k :=
      Nat.sub_mul _ _ _
    have hge : (k - 1) * k ≤ texts.length * k := Nat.mul_le_mul_right k hLk
    have h2mul : 2 * tri (k - 1) = (k - 1) * k := by
      have h := two_mul_tri (k - 1)
      rw [show k - 1 + 1 = k by omega] at h
      exact h
    have hcomm : (k - 1) * k = k * (k - 1) := Nat.mul_comm _ _
    rw [hpb, hsub] at h2
    omega
  · have hsubset : (texts.map (fun s => Term.unigram s 0)).dedup ⊆
        (ingestStream k texts).1.terms := by
      intro x hx
      rw [List.mem_dedup] at hx
      obtain ⟨s, hsx, rfl⟩ := List.mem_map.1 hx
      rw [hstart]
      exact hspec.2.2.2.2.1 s hsx
    exact (List.subperm_of_subset (List.nodup_dedup _) hsubset).length_le

/-- Witness for C4 (amended) at `k = 2`, stream `["a", "b", "c"]`. -/
theorem ingest_term_count_bounds_witness :
    (1 : Nat) ≤ 2 ∧
    (ingestStream 2 ["a", "b", "c"]).1.terms.length ≤
      (["a", "b", "c"] : List String).length * 2 - 2 * (2 - 1) / 2 :=
  ⟨by decide,
    (ingest_term_count_bounds 2 ["a", "b", "c"] (by decide) (by decide) (by decide)).2.1⟩

/-! ### Lemmas about the `Ingestor` model -/

theorem deleteDoc_postingCount (s : IngestorState) (id : DocId) :
    (s.deleteDoc id).1.postingCount = s.postingCount := by
  unfold IngestorState.deleteDoc
  split <;> rfl

theorem deleteDoc_totalSourceByteSize (s : IngestorState) (id : DocId) :
    (s.deleteDoc id).1.totalSourceByteSize = s.totalSourceByteSize := by
  unfold IngestorState.deleteDoc
  split <;> rfl

theorem deleteAll_postingCount :
    ∀ (ids : List DocId) (s : IngestorState), (deleteAll s ids).postingCount = s.postingCount
  | [], _ => rfl
  | i :: is, s => by
    have ih := deleteAll_postingCount is (s.deleteDoc i).1
    simp only [deleteAll, List.foldl_cons] at ih ⊢
    rw [ih, deleteDoc_postingCount]

theorem deleteAll_totalSourceByteSize :
    ∀ (ids : List DocId) (s : IngestorState),
      (deleteAll s ids).totalSourceByteSize = s.totalSourceByteSize
  | [], _ => rfl
  | i :: is, s => by
    have ih := deleteAll_totalSourceByteSize is (s.deleteDoc i).1
    simp only [deleteAll, List.foldl_cons] at ih ⊢
    rw [ih, deleteDoc_totalSourceByteSize]

theorem applyOp_totalSourceByteSize_le (s : IngestorState) (op : IngestOp) :
    s.totalSourceByteSize ≤ (applyOp s op).totalSourceByteSize := by
  cases op with
  | addOp id p b =>
    simp only [applyOp, IngestorState.add]
    split <;> simp
  | deleteOp id => simp [applyOp, deleteDoc_totalSourceByteSize]
  | openGroupOp g => exact le_refl _
  | closeGroupOp => exact le_refl _
  | expireGroupOp g => simp [applyOp, IngestorState.expireGroup, deleteAll_totalSourceByteSize]

theorem applyOp_postingCount (s : IngestorState) (op : IngestOp) :
    (applyOp s op).postingCount =
      s.postingCount +
        (match op with
         | .addOp id p _ => if s.live.contains id then 0 else p
         | _ => 0) := by
  cases op with
  | addOp id p b =>
    by_cases hc : id ∈ s.live
    · simp [applyOp, IngestorState.add, hc]
    · simp [applyOp, IngestorState.add, hc]
  | deleteOp id => simp [applyOp, deleteDoc_postingCount]
  | openGroupOp g => simp [applyOp, IngestorState.openGroup]
  | closeGroupOp => simp [applyOp, IngestorState.closeGroup]
  | expireGroupOp g => simp [applyOp, IngestorState.expireGroup, deleteAll_postingCount]

/-- Over an arbitrary operation sequence the cumulative counters never
decrease, and the final posting count is the initial one plus everything
successfully ingested along the way. -/
theorem runOps_counters :
    ∀ (ops : List IngestOp) (s : IngestorState),
      s.totalSourceByteSize ≤ (ops.foldl applyOp s).totalSourceByteSize ∧
      s.postingCount ≤ (ops.foldl applyOp s).postingCount ∧
      (ops.foldl applyOp s).postingCount = s.postingCount + ingestedPostings s ops
  | [], s => ⟨le_refl _, le_refl _, by simp [ingestedPostings]⟩
  | op :: ops, s => by
    have ih := runOps_counters ops (applyOp s op)
    have h1 := applyOp_totalSourceByteSize_le s op
    have h2 := applyOp_postingCount s op
    simp only [List.foldl_cons]
    refine ⟨h1.trans ih.1, ?_, ?_⟩
    · refine le_trans ?_ ih.2.1
      omega
    · rw [ih.2.2, h2]
      simp only [ingestedPostings]
      omega

/-- Deleting a covering set of ids empties the live set, leaves the posting
counter untouched, and drives `documentCount` to zero whenever it equalled
the live count. -/
theorem deleteAll_spec :
    ∀ (ids : List DocId) (s : IngestorState),
      s.live.Nodup → (∀ id ∈ s.live, id ∈ ids) →
      (deleteAll s ids).live = [] ∧
      (s.documentCount = s.live.length → (deleteAll s ids).documentCount = 0)
  | [], s, _, hcov => by
    have hnil : s.live = [] :=
      List.eq_nil_iff_forall_not_mem.2 fun x hx => (List.not_mem_nil x) (hcov x hx)
    exact ⟨hnil, fun h => by simp [deleteAll, h, hnil]⟩
  | i :: is, s, hnd, hcov => by
    by_cases hc : s.live.contains i = true
    · have hmem : i ∈ s.live := by simpa using hc
      have hdel : (s.deleteDoc i).1 =
          { s with live := s.live.erase i, tombstoned := i :: s.tombstoned,
                   documentCount := s.documentCount - 1 } := by
        simp [IngestorState.deleteDoc, hmem]
      have hnd1 : (s.live.erase i).Nodup := hnd.erase i
      have hcov1 : ∀ id ∈ s.live.erase i, id ∈ is := by
        intro x hx
        have hxl : x ∈ s.live := List.mem_of_mem_erase hx
        have hxne : x ≠ i := by
          intro hxe
          rw [hxe] at hx
          exact hnd.not_mem_erase hx
        rcases List.mem_cons.1 (hcov x hxl) with h | h
        · exact absurd h hxne
        · exact h
      have ih := deleteAll_spec is (s.deleteDoc i).1
        (by rw [hdel]; exact hnd1) (by rw [hdel]; exact hcov1)
      have hlen : (s.live.erase i).length + 1 = s.live.length :=
        List.length_erase_add_one hmem
      simp only [deleteAll, List.foldl_cons] at ih ⊢
      refine ⟨ih.1, fun h => ih.2 ?_⟩
      rw [hdel]
      simp only []
      omega
    · have hmem : i ∉ s.live := by simpa using hc
      have hdel : (s.deleteDoc i).1 = s := by
        simp [IngestorState.deleteDoc, hmem]
      have hcov1 : ∀ id ∈ s.live, id ∈ is := by
        intro x hx
        rcases List.mem_cons.1 (hcov x hx) with h | h
        · subst h
          exact absurd hx hmem
        · exact h
      have ih := deleteAll_spec is s hnd hcov1
      simp only [deleteAll, List.foldl_cons, hdel] at ih ⊢
      exact ih

/-- C7: `Delete` returns true iff the id is live at the time of the call, in
which case it tombstones the entry, decrements `documentCount`, and leaves
the id non-`Contains`; deleting an absent or already-deleted id returns
false and leaves the state untouched, so two consecutive deletes of a live
id return `(true, false)`. -/
theorem delete_idempotent (s : IngestorState) (id : DocId) (hnd : s.live.Nodup) :
    ((s.deleteDoc id).2 = true ↔ s.contains id = true) ∧
    (s.contains id = true →
      (s.deleteDoc id).1.documentCount = s.documentCount - 1 ∧
      id ∈ (s.deleteDoc id).1.tombstoned ∧
      (s.deleteDoc id).1.contains id = false ∧
      ((s.deleteDoc id).1.deleteDoc id).2 = false ∧
      ((s.deleteDoc id).1.deleteDoc id).1 = (s.deleteDoc id).1) ∧
    (s.contains id = false → s.deleteDoc id = (s, false)) := by
  refine ⟨?_, ?_, ?_⟩
  · unfold IngestorState.deleteDoc IngestorState.contains
    split <;> simp_all
  · intro hc
    have hmem : id ∈ s.live := by simpa [IngestorState.contains] using hc
    have hdel : s.deleteDoc id =
        ({ s with live := s.live.erase id, tombstoned := id :: s.tombstoned,
                  documentCount := s.documentCount - 1 }, true) := by
      simp [IngestorState.deleteDoc, hmem]
    have hnotmem : id ∉ s.live.erase id := hnd.not_mem_erase
    rw [hdel]
    refine ⟨rfl, by simp, ?_, ?_, ?_⟩
    · simp [IngestorState.contains, hnotmem]
    · simp [IngestorState.deleteDoc, hnotmem]
    · simp [IngestorState.deleteDoc, hnotmem]
  · intro hc
    have hmem : id ∉ s.live := by simpa [IngestorState.contains] using hc
    simp [IngestorState.deleteDoc, hmem]

/-- Witness for C7: deleting the only document of a one-document state. -/
theorem delete_idempotent_witness :
    (((IngestorState.initial.add 7 3 5).1.deleteDoc 7).2 = true ↔
      (IngestorState.initial.add 7 3 5).1.contains 7 = true) :=
  (delete_idempotent (IngestorState.initial.add 7 3 5).1 7 (by decide)).1

/-- C8: `totalSourceByteSize` and `postingCount` are monotonically
non-decreasing over every operation sequence; the posting count always
equals its initial value plus the postings of every successful `Add` (so
neither `Delete` nor `ExpireGroup` reduces it); and bulk-deleting every
live document leaves `postingCount` at the lifetime total while
`documentCount` reaches 0. -/
theorem ingestor_counters_monotone (s : IngestorState) (ops : List IngestOp)
    (ids : List DocId) (hnd : s.live.Nodup)
    (hcov : ∀ id ∈ s.live, id ∈ ids)
    (hcount : s.documentCount = s.live.length) :
    s.totalSourceByteSize ≤ (ops.foldl applyOp s).totalSourceByteSize ∧
    s.postingCount ≤ (ops.foldl applyOp s).postingCount ∧
    (ops.foldl applyOp s).postingCount = s.postingCount + ingestedPostings s ops ∧
    (deleteAll s ids).postingCount = s.postingCount ∧
    (deleteAll s ids).documentCount = 0 := by
  have h1 := runOps_counters ops s
  have h2 := deleteAll_spec ids s hnd hcov
  exact ⟨h1.1, h1.2.1, h1.2.2, deleteAll_postingCount ids s, h2.2 hcount⟩

/-- Witness for C8: two adds, then one delete as the operation sequence, and
a bulk delete of both ids. -/
theorem ingestor_counters_monotone_witness :
    (deleteAll ((IngestorState.initial.add 1 5 10).1.add 2 7 20).1 [1, 2]).documentCount = 0 :=
  (ingestor_counters_monotone ((IngestorState.initial.add 1 5 10).1.add 2 7 20).1
    [IngestOp.deleteOp 1] [1, 2] (by decide) (by decide) (by decide)).2.2.2.2

/-- Counterexample to C9 as stated: with group 1 open, `OpenGroup 2` does
not fail — it succeeds (no error is raised) and switches the current group
to 2, implicitly closing group 1. -/
theorem openGroup_counterexample :
    ((IngestorState.initial.openGroup 1).1.currentGroup = some 1) ∧
    ((IngestorState.initial.openGroup 1).1.openGroup 2).2 = none ∧
    ((IngestorState.initial.openGroup 1).1.openGroup 2).1.currentGroup = some 2 := by
  decide

/-- C9 (amended): `OpenGroup` never fails, also when a group is already
open; it makes the new group current (implicitly closing the previous one)
and preserves the recorded memberships — the previously open group's
membership is sealed, not discarded — as documented in `Ingestor.h`. -/
theorem openGroup_implicitly_closes (s : IngestorState) (g : GroupId) :
    (s.openGroup g).2 = none ∧
    (s.openGroup g).1.currentGroup = some g ∧
    (s.openGroup g).1.groupMembers = s.groupMembers ∧
    (s.openGroup g).1.live = s.live ∧
    (s.openGroup g).1.documentCount = s.documentCount ∧
    (s.openGroup g).1.postingCount = s.postingCount :=
  ⟨rfl, rfl, rfl, rfl, rfl, rfl⟩

end BitFunnel
